import Mathlib

/-!
Verification development for the IA-RESUMER transcription pipeline.

The definitions below are shallow embeddings of the Python source:
`src/core/transcriber.py` (chunked long-form transcription, stitching,
post-processing, multi-model fallback) and `src/utils/file_handler.py`
(the TTL cache).  Machine floats are modelled by exact rationals, Python
dicts by structures, and the external speech-recognition call by an
abstract function parameter.  All definitions are executable; the left to
right scanners used by the regex substitutions are written with an
explicit fuel argument (initialised to the input length) so that they
reduce inside the kernel, and `chop_cons` recovers the intended
recursion equation.
-/

/-- Characters treated as whitespace by Python's `str.split()` / `str.strip()`
and by the regex class in `_remove_repetitions` (ASCII range). -/
def isPySpace (c : Char) : Bool :=
  c == ' ' || c == '\t' || c == '\n' || c == '\r' || c == '\x0b' || c == '\x0c'

/-- Characters matched by the regex class `\w` (ASCII range): letters,
digits and the underscore. -/
def isWordChar (c : Char) : Bool :=
  c.isAlphanum || c == '_'

/-- Helper bound used by the scanners below. -/
theorem dropWhile_length_le (p : α → Bool) (l : List α) :
    (l.dropWhile p).length ≤ l.length := by
  induction l with
  | nil => simp [List.dropWhile]
  | cons a t ih =>
    simp only [List.dropWhile_cons]
    split
    · exact Nat.le_succ_of_le ih
    · simp

/-- Fueled left to right scanner.  At each step, `step c cs` returns the
output to emit for the match starting at `c` and the remaining input to
continue scanning after the match, exactly the way `re.sub` resumes after
each replacement. -/
def chopF (step : β → List β → List γ × List β) : ℕ → List β → List γ
  | 0, _ => []
  | _ + 1, [] => []
  | f + 1, c :: cs => (step c cs).1 ++ chopF step f (step c cs).2

/-- Run a scanner with enough fuel to consume its whole input. -/
def chop (step : β → List β → List γ × List β) (l : List β) : List γ :=
  chopF step l.length l

/-- A scanner only depends on having sufficient fuel. -/
theorem chopF_congr (step : β → List β → List γ × List β)
    (hstep : ∀ c cs, (step c cs).2.length ≤ cs.length) :
    ∀ f g : ℕ, ∀ l : List β, l.length ≤ f → l.length ≤ g →
      chopF step f l = chopF step g l := by
  intro f
  induction f with
  | zero =>
    intro g l hf _
    have : l = [] := List.length_eq_zero.mp (Nat.le_zero.mp hf)
    subst this
    cases g <;> simp [chopF]
  | succ f ih =>
    intro g l hf hg
    cases l with
    | nil => cases g <;> simp [chopF]
    | cons c cs =>
      cases g with
      | zero => simp at hg
      | succ g =>
        simp only [chopF]
        congr 1
        have hcs : cs.length ≤ f := Nat.le_of_succ_le_succ hf
        have hcs' : cs.length ≤ g := Nat.le_of_succ_le_succ hg
        exact ih g _ (le_trans (hstep c cs) hcs) (le_trans (hstep c cs) hcs')

/-- Recursion equation of a scanner on a nonempty input. -/
theorem chop_cons (step : β → List β → List γ × List β)
    (hstep : ∀ c cs, (step c cs).2.length ≤ cs.length)
    (c : β) (cs : List β) :
    chop step (c :: cs) = (step c cs).1 ++ chop step (step c cs).2 := by
  simp only [chop, List.length_cons, chopF]
  congr 1
  exact chopF_congr step hstep cs.length _ _ (le_trans (hstep c cs) (le_refl _)) (le_refl _)

/-- Recursion equation of a scanner on the empty input. -/
theorem chop_nil (step : β → List β → List γ × List β) :
    chop step ([] : List β) = [] := rfl

/-- Step of the whitespace-collapsing substitution
`re.sub(r'\s+', ' ', text)`: a maximal whitespace run becomes one space. -/
def wsStep (c : Char) (cs : List Char) : List Char × List Char :=
  if isPySpace c then ([' '], cs.dropWhile isPySpace) else ([c], cs)

theorem wsStep_length_le (c : Char) (cs : List Char) :
    (wsStep c cs).2.length ≤ cs.length := by
  unfold wsStep
  split
  · exact dropWhile_length_le _ _
  · exact le_refl _

/-- First substitution of `_remove_repetitions`: `re.sub(r'\s+', ' ', text)`. -/
def collapseWS (l : List Char) : List Char :=
  chop wsStep l

/-- Step of Python's `str.split()`: skip a whitespace character, or emit the
maximal non-whitespace run starting here. -/
def splitStep (c : Char) (cs : List Char) : List (List Char) × List Char :=
  if isPySpace c then ([], cs)
  else ([c :: cs.takeWhile (fun x => !isPySpace x)], cs.dropWhile (fun x => !isPySpace x))

theorem splitStep_length_le (c : Char) (cs : List Char) :
    (splitStep c cs).2.length ≤ cs.length := by
  unfold splitStep
  split
  · exact le_refl _
  · exact dropWhile_length_le _ _

/-- Python's `str.split()` with no argument: split on runs of whitespace,
dropping empty pieces. -/
def splitWS (l : List Char) : List (List Char) :=
  chop splitStep l

/-- Python's `str.split()` on `String`. -/
def pySplit (s : String) : List String :=
  (splitWS s.data).map (fun l => ⟨l⟩)

/-- Python's `str.strip()`: drop leading and trailing whitespace. -/
def pyStripL (l : List Char) : List Char :=
  ((l.dropWhile isPySpace).reverse.dropWhile isPySpace).reverse

/-- Python's `str.strip()` on `String`. -/
def pyStrip (s : String) : String :=
  ⟨pyStripL s.data⟩

/-- The continuity-hint helper of `_transcribe_long_audio`:
`" ".join(prev_text.split()[-10:])`. -/
def last_words (t : String) : String :=
  let ws := pySplit t
  String.intercalate " " (ws.drop (ws.length - 10))

/-- Lexical items of a string as seen by the word-repetition regex
`\b(\w+)(\s+\1){2,}\b`: maximal runs of `\w` characters, maximal runs of
whitespace, and single other characters. -/
inductive Tok where
  | word : List Char → Tok
  | space : List Char → Tok
  | other : Char → Tok
deriving Repr, DecidableEq

/-- Step of the tokenizer. -/
def tokStep (c : Char) (cs : List Char) : List Tok × List Char :=
  if isWordChar c then
    ([Tok.word (c :: cs.takeWhile isWordChar)], cs.dropWhile isWordChar)
  else if isPySpace c then
    ([Tok.space (c :: cs.takeWhile isPySpace)], cs.dropWhile isPySpace)
  else
    ([Tok.other c], cs)

theorem tokStep_length_le (c : Char) (cs : List Char) :
    (tokStep c cs).2.length ≤ cs.length := by
  unfold tokStep
  split
  · exact dropWhile_length_le _ _
  · split
    · exact dropWhile_length_le _ _
    · exact le_refl _

/-- Tokenize a string into maximal word runs, maximal whitespace runs and
single other characters. -/
def tokenize (l : List Char) : List Tok :=
  chop tokStep l

/-- Count (greedily) how many leading `(\s+ w)` groups a token list starts
with, returning the count together with the remaining suffix.  Because the
tokens are maximal runs, each repetition of the captured word is forced to
be a complete word followed by a boundary, exactly as in the regex. -/
def splitReps (w : List Char) : List Tok → ℕ × List Tok
  | Tok.space s :: Tok.word v :: rest =>
    if v = w then
      let r := splitReps w rest
      (r.1 + 1, r.2)
    else (0, Tok.space s :: Tok.word v :: rest)
  | l => (0, l)

/-- The remainder returned by `splitReps` is no longer than the input. -/
theorem splitReps_length_le (w : List Char) :
    ∀ l : List Tok, (splitReps w l).2.length ≤ l.length
  | [] => by simp [splitReps]
  | Tok.word v :: rest => by simp [splitReps]
  | Tok.other c :: rest => by simp [splitReps]
  | [Tok.space s] => by simp [splitReps]
  | Tok.space s :: Tok.other c :: rest => by simp [splitReps]
  | Tok.space s :: Tok.space s2 :: rest => by simp [splitReps]
  | Tok.space s :: Tok.word v :: rest => by
    by_cases hv : v = w
    · have ih := splitReps_length_le w rest
      simp only [splitReps, if_pos hv, List.length_cons]
      omega
    · simp [splitReps, hv]

/-- Step of the word-repetition substitution: at a word token, greedily
absorb two or more whitespace-separated repetitions into one occurrence;
any other token is copied. -/
def repStep (t : Tok) (rest : List Tok) : List Tok × List Tok :=
  match t with
  | Tok.word w =>
    let r := splitReps w rest
    if 2 ≤ r.1 then ([Tok.word w], r.2) else ([Tok.word w], rest)
  | t => ([t], rest)

theorem repStep_length_le (t : Tok) (rest : List Tok) :
    (repStep t rest).2.length ≤ rest.length := by
  unfold repStep
  match t with
  | Tok.word w =>
    simp only
    split
    · exact splitReps_length_le w rest
    · exact le_refl _
  | Tok.space s => simp
  | Tok.other c => simp

/-- Second substitution of `_remove_repetitions`:
`re.sub(r'\b(\w+)(\s+\1){2,}\b', r'\1', text)` applied to the token
stream. -/
def collapseReps (l : List Tok) : List Tok :=
  chop repStep l

/-- Concatenate the tokens back into a character list. -/
def renderToks : List Tok → List Char
  | [] => []
  | Tok.word w :: rest => w ++ renderToks rest
  | Tok.space s :: rest => s ++ renderToks rest
  | Tok.other c :: rest => c :: renderToks rest

/-- Step of the period-collapsing substitution `re.sub(r'\.{4,}', '...')`:
a maximal run of four or more periods becomes exactly three. -/
def dotStep (c : Char) (cs : List Char) : List Char × List Char :=
  if c = '.' then
    ((if 3 ≤ (cs.takeWhile (fun x => x == '.')).length then ['.', '.', '.']
      else '.' :: cs.takeWhile (fun x => x == '.')),
     cs.dropWhile (fun x => x == '.'))
  else ([c], cs)

theorem dotStep_length_le (c : Char) (cs : List Char) :
    (dotStep c cs).2.length ≤ cs.length := by
  unfold dotStep
  split
  · exact dropWhile_length_le _ _
  · exact le_refl _

/-- Third substitution of `_remove_repetitions`. -/
def collapsePeriods (l : List Char) : List Char :=
  chop dotStep l

/-- The `_remove_repetitions` text cleaner of `WhisperTranscriber`:
collapse whitespace runs, collapse word repetitions of multiplicity three
or more, collapse period runs of four or more, then strip. -/
def remove_repetitions (text : String) : String :=
  let t1 := collapseWS text.data
  let t2 := renderToks (collapseReps (tokenize t1))
  let t3 := collapsePeriods t2
  ⟨pyStripL t3⟩

/-- The `_clean_segment_text` helper: normalize inner whitespace via
`" ".join(text.split())`, capitalize a lowercase first letter, and append
a period when no terminal punctuation is present. -/
def clean_segment_text (t : String) : String :=
  let t1 : List Char := List.intercalate [' '] (splitWS t.data)
  let t2 : List Char :=
    match t1 with
    | [] => []
    | c :: cs => if c.isLower then c.toUpper :: cs else c :: cs
  let t3 : List Char :=
    match t2.getLast? with
    | none => t2
    | some c => if c = '.' ∨ c = '!' ∨ c = '?' then t2 else t2 ++ ['.']
  ⟨t3⟩

example : remove_repetitions "go go go home" = "go home" := by decide
example : remove_repetitions "a....." = "a..." := by decide
example : clean_segment_text "ok." = "Ok." := by decide
example : last_words "one two three" = "one two three" := by decide
example : last_words "a b c d e f g h i j k l" = "c d e f g h i j k l" := by decide

/-- A transcription segment as produced by the recognition backend:
`{id, start, end, text}` with times in seconds.  Floats are modelled by
exact rationals. -/
structure Segment where
  id : ℤ
  start : ℚ
  «end» : ℚ
  text : String
deriving Repr, DecidableEq

/-- The per-chunk result of the external recognition call: full text plus
the ordered segment list. -/
structure RecognitionResult where
  text : String
  segments : List Segment
deriving Repr, DecidableEq

/-- The combined transcription result assembled by
`_transcribe_long_audio` (and, for short inputs, `_transcribe_single`). -/
structure TranscriptResult where
  text : String
  segments : List Segment
  language : String
  duration : ℚ
  method : String
  num_chunks : ℕ
deriving Repr, DecidableEq

/-- The loop state of `_transcribe_long_audio`: the accumulated segments,
the accumulated per-chunk texts, the running total duration and the
mutable `params["initial_prompt"]` entry.  `promptLog` records the prompt
supplied to each recognition call, in order. -/
structure StitchState where
  all_segments : List Segment
  full_text : List String
  total_duration : ℚ
  prompt : Option String
  promptLog : List (Option String)
deriving Repr, DecidableEq

/-- Timestamp and id adjustment applied to a chunk result before it is
appended (`if all_segments:` branch of `_transcribe_long_audio`): add the
end time of the last accumulated segment to every start and end, and add
the number of accumulated segments to every id.  When nothing has been
accumulated the segments are left untouched. -/
def stitch_adjust (running : List Segment) (segs : List Segment) : List Segment :=
  match running.getLast? with
  | none => segs
  | some lastSeg =>
    segs.map (fun s =>
      { s with start := s.start + lastSeg.«end»,
               «end» := s.«end» + lastSeg.«end»,
               id := (running.length : ℤ) + s.id })

/-- One iteration of the chunk loop of `_transcribe_long_audio` for chunk
index `i`: update the continuity prompt from the last accumulated segment
(for `i > 0`), invoke the recognition backend, offset the returned
segments, and append segments, text and duration. -/
def chunk_step (recognize : ℕ → Option String → RecognitionResult)
    (st : StitchState) (i : ℕ) : StitchState :=
  let prompt : Option String :=
    match st.all_segments.getLast? with
    | some lastSeg =>
      if 0 < i then some ("..." ++ last_words lastSeg.text) else st.prompt
    | none => st.prompt
  let chunk := recognize i prompt
  let adjusted := stitch_adjust st.all_segments chunk.segments
  { all_segments := st.all_segments ++ adjusted
    full_text := st.full_text ++ [pyStrip chunk.text]
    total_duration :=
      match adjusted.getLast? with
      | some s => s.«end»
      | none => st.total_duration
    prompt := prompt
    promptLog := st.promptLog ++ [prompt] }

/-- The loop state after the first `k` chunks have been processed,
starting from the initial prompt `p0` (`initial_prompt` or the language
prompt, as set before the loop). -/
def stitch_state (recognize : ℕ → Option String → RecognitionResult)
    (p0 : Option String) (k : ℕ) : StitchState :=
  (List.range k).foldl (chunk_step recognize) ⟨[], [], 0, p0, []⟩

/-- The continuity prompt supplied to the recognition call for chunk `i`:
for `i > 0` with at least one accumulated segment, an ellipsis followed by
the last ten words of the last accumulated segment's text; otherwise the
prompt currently stored in the parameters. -/
def prompt_at (recognize : ℕ → Option String → RecognitionResult)
    (p0 : Option String) (i : ℕ) : Option String :=
  let st := stitch_state recognize p0 i
  match st.all_segments.getLast? with
  | some lastSeg =>
    if 0 < i then some ("..." ++ last_words lastSeg.text) else st.prompt
  | none => st.prompt

/-- The recognition result actually obtained for chunk `i` during the
loop. -/
def chunk_at (recognize : ℕ → Option String → RecognitionResult)
    (p0 : Option String) (i : ℕ) : RecognitionResult :=
  recognize i (prompt_at recognize p0 i)

/-- The `_transcribe_long_audio` pipeline over `n` chunks: run the chunk
loop and assemble the combined result
`{text, segments, language, duration, method: "chunks", num_chunks}`. -/
def transcribe_long_form (recognize : ℕ → Option String → RecognitionResult)
    (lang : String) (p0 : Option String) (n : ℕ) : TranscriptResult :=
  let st := stitch_state recognize p0 n
  { text := String.intercalate " " st.full_text
    segments := st.all_segments
    language := lang
    duration := st.total_duration
    method := "chunks"
    num_chunks := n }

/-- The segment pass of `_postprocess_transcription`: drop a segment whose
stripped text has fewer than 3 characters, clean the text of every
retained segment. -/
def postprocess_segments : List Segment → List Segment
  | [] => []
  | s :: rest =>
    if (pyStripL s.text.data).length < 3 then postprocess_segments rest
    else { s with text := clean_segment_text s.text } :: postprocess_segments rest

/-- The `_postprocess_transcription` step applied to a combined result:
clean the full text and filter/clean the segments.  (The per-word
confidence aggregation and the quality-metrics dictionary concern fields
the claims below do not touch.) -/
def postprocess_transcription (r : TranscriptResult) : TranscriptResult :=
  { r with text := remove_repetitions r.text
           segments := postprocess_segments r.segments }

/-- Chunk selection of `_transcribe_long_audio`: try silence splitting
first; if it yields fewer than two chunks, fall back to fixed 240 second
windows (`split_audio_by_duration(audio_path, chunk_duration=240)`).  The
two splitters run on external audio data and are abstracted by their
resulting chunk lists. -/
def select_chunks (silence_chunks chunks_240s : List ℕ) : List ℕ :=
  if silence_chunks.length < 2 then chunks_240s else silence_chunks

/-- The dispatch of `transcribe_enhanced`: inputs longer than 300 seconds
go through the chunked pipeline, everything else is transcribed as a
single chunk (whose raw result is `single_raw`, tagged `single`); the
result is then post-processed. -/
def transcribe_enhanced (recognize : ℕ → Option String → RecognitionResult)
    (single_raw : TranscriptResult) (duration : ℚ)
    (silence_chunks chunks_240s : List ℕ)
    (lang : String) (p0 : Option String) : TranscriptResult :=
  let result :=
    if 300 < duration then
      transcribe_long_form recognize lang p0 (select_chunks silence_chunks chunks_240s).length
    else
      { single_raw with method := "single" }
  postprocess_transcription result

/-- The quality-metrics dictionary computed by
`_calculate_quality_metrics` and read back by `transcribe_with_fallback`.
The silence ratio field models the key `silence_ratio`. -/
structure QualityMetrics where
  total_segments : ℕ
  total_words : ℕ
  avg_segment_confidence : ℚ
  low_confidence_segments : ℕ
  silence_share : ℚ
deriving Repr, DecidableEq

/-- The composite score of `transcribe_with_fallback`:
`0.5·avg_confidence + 0.3·(1 − silence_ratio) + 0.2·(1 − low/max(total,1))`. -/
def quality_score (m : QualityMetrics) : ℚ :=
  m.avg_segment_confidence * (1 / 2)
    + (1 - m.silence_share) * (3 / 10)
    + (1 - (m.low_confidence_segments : ℚ) / (max m.total_segments 1 : ℕ)) * (1 / 5)

/-- The loop body of `transcribe_with_fallback`.  Each attempt is a model
name paired with `none` when that model's transcription raised, or `some`
metrics of its (post-processed) result.  The accumulator carries the best
model seen with its score, and the list of attempts actually evaluated. -/
def fallback_go :
    List (String × Option QualityMetrics) →
    Option (String × ℚ) → ℚ → List String →
    Option (String × ℚ) × List String
  | [], best, _, evaluated => (best, evaluated)
  | (model, none) :: rest, best, bestScore, evaluated =>
    fallback_go rest best bestScore (evaluated ++ [model])
  | (model, some m) :: rest, best, bestScore, evaluated =>
    let score := quality_score m
    let best' := if bestScore < score then some (model, score) else best
    let bestScore' := if bestScore < score then score else bestScore
    if 17 / 20 < score then (best', evaluated ++ [model])
    else fallback_go rest best' bestScore' (evaluated ++ [model])

/-- The `transcribe_with_fallback` driver: try the models in the given
order, keep the best-scoring result, stop early above the 0.85 threshold,
and raise when no model produced a result.  Returns the outcome together
with the list of models whose transcription was actually attempted. -/
def transcribe_with_fallback (attempts : List (String × Option QualityMetrics)) :
    Except String (String × ℚ) × List String :=
  match fallback_go attempts none 0 [] with
  | (none, evaluated) => (Except.error "Falha ao transcrever com todos os modelos", evaluated)
  | (some best, evaluated) => (Except.ok best, evaluated)

/-- Configuration of `FileHandler` relevant to the cache: the enabled flag
and the TTL in seconds, both read from `PERFORMANCE_CONFIG`. -/
structure FileHandlerCfg where
  cache_enabled : Bool
  cache_ttl : ℤ
deriving Repr, DecidableEq

/-- The cache directory contents, abstracted as a map from the
`(operation, file_hash)` pair naming the file
`.cache_{operation}_{hash}.json` to the stored payload and its mtime. -/
def CacheStore (α : Type) : Type :=
  String → String → Option (α × ℤ)

/-- The `check_cache` operation: disabled caches and missing files miss;
an entry older than the TTL is deleted and misses; otherwise the stored
payload is returned.  The resulting store reflects the deletion. -/
def check_cache (cfg : FileHandlerCfg) (store : CacheStore α) (now : ℤ)
    (file_hash operation : String) : Option α × CacheStore α :=
  if cfg.cache_enabled = false then (none, store)
  else
    match store operation file_hash with
    | none => (none, store)
    | some (data, mtime) =>
      if cfg.cache_ttl < now - mtime then
        (none, fun op h =>
          if op = operation ∧ h = file_hash then none else store op h)
      else (some data, store)

/-- The `save_cache` operation: write or overwrite the entry
unconditionally (when the cache is enabled), stamping the current time. -/
def save_cache (cfg : FileHandlerCfg) (store : CacheStore α) (now : ℤ)
    (file_hash operation : String) (data : α) : CacheStore α :=
  if cfg.cache_enabled = false then store
  else fun op h =>
    if op = operation ∧ h = file_hash then some (data, now) else store op h

/-- Zero-padded two-digit rendering of a number below 100. -/
def pad2 (n : ℕ) : String :=
  if n < 10 then "0" ++ toString n else toString n

/-- Zero-padded three-digit rendering of a number below 1000. -/
def pad3 (n : ℕ) : String :=
  if n < 10 then "00" ++ toString n
  else if n < 100 then "0" ++ toString n
  else toString n

/-- Modelled from the spec: the tests exercise
`WhisperTranscriber._seconds_to_time`, but no such method exists anywhere
under the source tree, so the formatter is reconstructed from the spec's
persisted output formats — SRT `HH:MM:SS,mmm` with a comma before the
milliseconds and WebVTT `HH:MM:SS.mmm` with a period. -/
def seconds_to_time (seconds : ℚ) (vtt : Bool) : String :=
  let totalMs : ℕ := (⌊seconds * 1000⌋).toNat
  let h := totalMs / 3600000
  let m := totalMs / 60000 % 60
  let s := totalMs / 1000 % 60
  let ms := totalMs % 1000
  let sep := if vtt then "." else ","
  pad2 h ++ ":" ++ pad2 m ++ ":" ++ pad2 s ++ sep ++ pad3 ms

/-- End time of the last segment of a list, or 0 when the list is empty. -/
def lastEnd (l : List Segment) : ℚ :=
  match l.getLast? with
  | none => 0
  | some s => s.«end»

theorem stitch_state_succ (recognize : ℕ → Option String → RecognitionResult)
    (p0 : Option String) (k : ℕ) :
    stitch_state recognize p0 (k + 1)
      = chunk_step recognize (stitch_state recognize p0 k) k := by
  simp [stitch_state, List.range_succ]

theorem all_segments_succ (recognize : ℕ → Option String → RecognitionResult)
    (p0 : Option String) (k : ℕ) :
    (stitch_state recognize p0 (k + 1)).all_segments
      = (stitch_state recognize p0 k).all_segments
        ++ stitch_adjust (stitch_state recognize p0 k).all_segments
            (chunk_at recognize p0 k).segments := by
  rw [stitch_state_succ]
  rfl

theorem promptLog_eq (recognize : ℕ → Option String → RecognitionResult)
    (p0 : Option String) (k : ℕ) :
    (stitch_state recognize p0 k).promptLog
      = (List.range k).map (prompt_at recognize p0) := by
  induction k with
  | zero => rfl
  | succ k ih =>
    rw [stitch_state_succ]
    show (stitch_state recognize p0 k).promptLog ++ [_] = _
    rw [ih, List.range_succ, List.map_append]
    rfl

theorem all_segments_prefix (recognize : ℕ → Option String → RecognitionResult)
    (p0 : Option String) {i n : ℕ} (h : i ≤ n) :
    ∃ t, (stitch_state recognize p0 n).all_segments
      = (stitch_state recognize p0 i).all_segments ++ t := by
  induction n, h using Nat.le_induction with
  | base => exact ⟨[], by simp⟩
  | succ n _ ih =>
    obtain ⟨t, ht⟩ := ih
    refine ⟨t ++ stitch_adjust (stitch_state recognize p0 n).all_segments
      (chunk_at recognize p0 n).segments, ?_⟩
    rw [all_segments_succ, ht, List.append_assoc]

theorem total_duration_eq (recognize : ℕ → Option String → RecognitionResult)
    (p0 : Option String) (k : ℕ) :
    (stitch_state recognize p0 k).total_duration
      = lastEnd (stitch_state recognize p0 k).all_segments := by
  induction k with
  | zero => rfl
  | succ k ih =>
    rw [stitch_state_succ]
    show (match (stitch_adjust (stitch_state recognize p0 k).all_segments
        (chunk_at recognize p0 k).segments).getLast? with
      | some s => s.«end»
      | none => (stitch_state recognize p0 k).total_duration)
      = lastEnd ((stitch_state recognize p0 k).all_segments
          ++ stitch_adjust (stitch_state recognize p0 k).all_segments
              (chunk_at recognize p0 k).segments)
    cases hadj : (stitch_adjust (stitch_state recognize p0 k).all_segments
        (chunk_at recognize p0 k).segments).getLast? with
    | none =>
      have hnil := List.getLast?_eq_none_iff.mp hadj
      rw [hnil, List.append_nil]
      exact ih
    | some s =>
      have hne : stitch_adjust (stitch_state recognize p0 k).all_segments
          (chunk_at recognize p0 k).segments ≠ [] := by
        intro hc
        rw [hc] at hadj
        simp at hadj
      unfold lastEnd
      rw [List.getLast?_append_of_ne_nil _ hne, hadj]

/-- C9: the timestamp formatter maps 0 seconds to `00:00:00,000` (SRT) and
`00:00:00.000` (VTT), and 3661.5 seconds to `01:01:01,500` (SRT) and
`01:01:01.500` (VTT) — comma versus period before the milliseconds. -/
theorem seconds_to_time_spec :
    seconds_to_time 0 false = "00:00:00,000"
    ∧ seconds_to_time 0 true = "00:00:00.000"
    ∧ seconds_to_time (7323 / 2) false = "01:01:01,500"
    ∧ seconds_to_time (7323 / 2) true = "01:01:01.500" := by
  have h0 : ⌊(0 : ℚ) * 1000⌋ = 0 := by norm_num
  have h1 : ⌊(7323 / 2 : ℚ) * 1000⌋ = 3661500 := by norm_num
  refine ⟨?_, ?_, ?_, ?_⟩ <;> simp only [seconds_to_time, h0, h1] <;> decide

/-- C4: inputs of at most 300 seconds are transcribed as a single chunk
tagged `single`; longer inputs run the chunked pipeline tagged `chunks`,
splitting by silence first and falling back to the 240 second fixed
windows when silence splitting yields fewer than two chunks. -/
theorem enhanced_dispatch_spec
    (recognize : ℕ → Option String → RecognitionResult)
    (single_raw : TranscriptResult) (duration : ℚ)
    (silence_chunks chunks_240s : List ℕ) (lang : String) (p0 : Option String) :
    (duration ≤ 300 →
      (transcribe_enhanced recognize single_raw duration silence_chunks chunks_240s lang p0).method
        = "single")
    ∧ (300 < duration →
        (transcribe_enhanced recognize single_raw duration silence_chunks chunks_240s lang p0).method
          = "chunks"
        ∧ (transcribe_enhanced recognize single_raw duration silence_chunks chunks_240s lang p0).num_chunks
            = (if silence_chunks.length < 2 then chunks_240s else silence_chunks).length) := by
  constructor
  · intro hle
    simp [transcribe_enhanced, postprocess_transcription, not_lt.mpr hle]
  · intro hgt
    simp [transcribe_enhanced, postprocess_transcription, transcribe_long_form,
      select_chunks, hgt]

/-- Concrete recognizer used by the witnesses below: chunk 0 yields two
segments, later chunks one segment each. -/
def recW : ℕ → Option String → RecognitionResult := fun i _ =>
  if i = 0 then ⟨"hello world", [⟨0, 0, 2, "hello"⟩, ⟨1, 2, 5, "world"⟩]⟩
  else ⟨"again", [⟨0, 1, 3, "again"⟩]⟩

/-- A trivial raw single-chunk result used by the dispatch witness. -/
def single_rawW : TranscriptResult := ⟨"hi", [], "pt", 10, "", 0⟩

/-- Witness for C4 at concrete durations 100 and 400. -/
theorem enhanced_dispatch_witness :
    (transcribe_enhanced recW single_rawW 100 [] [7] "pt" none).method = "single"
    ∧ (transcribe_enhanced recW single_rawW 400 [3] [7, 8] "pt" none).method = "chunks"
    ∧ (transcribe_enhanced recW single_rawW 400 [3] [7, 8] "pt" none).num_chunks = 2 := by
  refine ⟨?_, ?_, ?_⟩
  · exact (enhanced_dispatch_spec recW single_rawW 100 [] [7] "pt" none).1 (by decide)
  · exact ((enhanced_dispatch_spec recW single_rawW 400 [3] [7, 8] "pt" none).2 (by decide)).1
  · have h := ((enhanced_dispatch_spec recW single_rawW 400 [3] [7, 8] "pt" none).2 (by decide)).2
    simpa using h

/-- C6: with the cache enabled, `check_cache` misses on an absent entry,
deletes and misses on an entry older than the TTL, returns a younger
entry unchanged, and returns the payload most recently written by
`save_cache` while it is still fresh. -/
theorem check_cache_spec {α : Type} (cfg : FileHandlerCfg) (store : CacheStore α)
    (now : ℤ) (file_hash operation : String) (hen : cfg.cache_enabled = true) :
    (store operation file_hash = none →
      check_cache cfg store now file_hash operation = (none, store))
    ∧ (∀ (d : α) (m : ℤ), store operation file_hash = some (d, m) →
        cfg.cache_ttl < now - m →
        (check_cache cfg store now file_hash operation).1 = none
        ∧ (check_cache cfg store now file_hash operation).2 operation file_hash = none)
    ∧ (∀ (d : α) (m : ℤ), store operation file_hash = some (d, m) →
        now - m < cfg.cache_ttl →
        check_cache cfg store now file_hash operation = (some d, store))
    ∧ (∀ (d : α) (tW tR : ℤ), tR - tW < cfg.cache_ttl →
        (check_cache cfg (save_cache cfg store tW file_hash operation d) tR
            file_hash operation).1 = some d) := by
  have hne : ¬ cfg.cache_enabled = false := by simp [hen]
  refine ⟨?_, ?_, ?_, ?_⟩
  · intro hmiss
    simp [check_cache, hne, hmiss]
  · intro d m hhit hold
    constructor
    · simp [check_cache, hne, hhit, hold]
    · simp [check_cache, hne, hhit, hold]
  · intro d m hhit hyoung
    simp [check_cache, hne, hhit, not_lt.mpr (le_of_lt hyoung)]
  · intro d tW tR hfresh
    have hsaved : save_cache cfg store tW file_hash operation d operation file_hash
        = some (d, tW) := by
      simp [save_cache, hne]
    simp [check_cache, hne, hsaved, not_lt.mpr (le_of_lt hfresh)]

/-- The empty cache store over natural-number payloads, for the witness. -/
def storeW : CacheStore ℕ := fun _ _ => none

/-- Witness for C6: a miss on the empty store, and a fresh read-back after
a save, at TTL 3600. -/
theorem check_cache_witness :
    check_cache ⟨true, 3600⟩ storeW 5 "deadbeef" "transcription" = (none, storeW)
    ∧ (check_cache ⟨true, 3600⟩
        (save_cache ⟨true, 3600⟩ storeW 5 "deadbeef" "transcription" 42) 6
        "deadbeef" "transcription").1 = some 42 := by
  constructor
  · exact (check_cache_spec ⟨true, 3600⟩ storeW 5 "deadbeef" "transcription" rfl).1 rfl
  · exact (check_cache_spec ⟨true, 3600⟩ storeW 6 "deadbeef" "transcription" rfl).2.2.2
      42 5 6 (by decide)

/-- C8: post-processing drops exactly the segments whose stripped text has
fewer than 3 characters and keeps all the others (cleaning their text);
`"ok"` is dropped, `"ok."` is kept. -/
theorem postprocess_filter_spec :
    (∀ segs : List Segment,
      postprocess_segments segs
        = (segs.filter (fun s => decide (3 ≤ (pyStripL s.text.data).length))).map
            (fun s => { s with text := clean_segment_text s.text }))
    ∧ postprocess_segments [⟨0, 0, 1, "ok"⟩] = []
    ∧ postprocess_segments [⟨0, 0, 1, "ok."⟩] = [⟨0, 0, 1, "Ok."⟩] := by
  refine ⟨?_, by decide, by decide⟩
  intro segs
  induction segs with
  | nil => rfl
  | cons s rest ih =>
    by_cases hs : (pyStripL s.text.data).length < 3
    · have hs' : ¬ 3 ≤ (pyStripL s.text.data).length := not_le.mpr hs
      simp [postprocess_segments, List.filter_cons, hs, hs', ih]
    · have hs' : 3 ≤ (pyStripL s.text.data).length := not_lt.mp hs
      simp [postprocess_segments, List.filter_cons, hs, hs', ih]

theorem stitch_adjust_nil (running : List Segment) :
    stitch_adjust running [] = [] := by
  unfold stitch_adjust
  cases running.getLast? <;> simp

/-- Position of chunk `i`'s block inside the final transcript when the
accumulator was empty beforehand: its segments appear untouched. -/
theorem stitched_block_plain (recognize : ℕ → Option String → RecognitionResult)
    (p0 : Option String) (lang : String) {n i : ℕ} (hin : i < n)
    (hemp : (stitch_state recognize p0 i).all_segments = [])
    {j : ℕ} (hj : j < (chunk_at recognize p0 i).segments.length) :
    (transcribe_long_form recognize lang p0 n).segments[j]?
      = (chunk_at recognize p0 i).segments[j]? := by
  obtain ⟨t, ht⟩ := all_segments_prefix recognize p0 (show i + 1 ≤ n from hin)
  show (stitch_state recognize p0 n).all_segments[j]? = _
  rw [ht, all_segments_succ, hemp]
  have hadj : stitch_adjust [] (chunk_at recognize p0 i).segments
      = (chunk_at recognize p0 i).segments := rfl
  rw [hadj, List.nil_append]
  rw [List.getElem?_append_left hj]

/-- Position of chunk `i`'s block inside the final transcript when the
accumulator was nonempty: its segments appear shifted by the last
accumulated end time, with ids shifted by the accumulated count. -/
theorem stitched_block_shifted (recognize : ℕ → Option String → RecognitionResult)
    (p0 : Option String) (lang : String) {n i : ℕ} (hin : i < n)
    {lastSeg : Segment}
    (hlast : (stitch_state recognize p0 i).all_segments.getLast? = some lastSeg)
    {j : ℕ} (hj : j < (chunk_at recognize p0 i).segments.length) :
    (transcribe_long_form recognize lang p0 n).segments[
        (stitch_state recognize p0 i).all_segments.length + j]?
      = ((chunk_at recognize p0 i).segments[j]?).map (fun s =>
          { s with start := s.start + lastSeg.«end»,
                   «end» := s.«end» + lastSeg.«end»,
                   id := ((stitch_state recognize p0 i).all_segments.length : ℤ) + s.id }) := by
  obtain ⟨t, ht⟩ := all_segments_prefix recognize p0 (show i + 1 ≤ n from hin)
  show (stitch_state recognize p0 n).all_segments[_]? = _
  rw [ht, all_segments_succ]
  have hadj : stitch_adjust (stitch_state recognize p0 i).all_segments
      (chunk_at recognize p0 i).segments
      = (chunk_at recognize p0 i).segments.map (fun s =>
          { s with start := s.start + lastSeg.«end»,
                   «end» := s.«end» + lastSeg.«end»,
                   id := ((stitch_state recognize p0 i).all_segments.length : ℤ) + s.id }) := by
    unfold stitch_adjust
    rw [hlast]
  rw [hadj, List.append_assoc]
  rw [List.getElem?_append_right (Nat.le_add_right _ _)]
  rw [Nat.add_sub_cancel_left]
  rw [List.getElem?_append_left (by simpa using hj)]
  rw [List.getElem?_map]

/-- C1: in the stitcher, a chunk whose predecessors accumulated at least
one segment contributes every recognized segment shifted on start and end
by the end time of the last accumulated segment, with its id renumbered by
adding the accumulated segment count; a chunk with an empty accumulator
(in particular chunk 0) contributes its segments and ids untouched. -/
theorem stitch_offset_renumber_spec
    (recognize : ℕ → Option String → RecognitionResult)
    (p0 : Option String) (lang : String) (n i : ℕ) (hin : i < n) :
    (∀ lastSeg : Segment,
      (stitch_state recognize p0 i).all_segments.getLast? = some lastSeg →
      ∀ j : ℕ, j < (chunk_at recognize p0 i).segments.length →
        (transcribe_long_form recognize lang p0 n).segments[
            (stitch_state recognize p0 i).all_segments.length + j]?
          = ((chunk_at recognize p0 i).segments[j]?).map (fun s =>
              { s with start := s.start + lastSeg.«end»,
                       «end» := s.«end» + lastSeg.«end»,
                       id := ((stitch_state recognize p0 i).all_segments.length : ℤ) + s.id }))
    ∧ (i = 0 →
      ∀ j : ℕ, j < (chunk_at recognize p0 i).segments.length →
        (transcribe_long_form recognize lang p0 n).segments[j]?
          = (chunk_at recognize p0 i).segments[j]?) := by
  constructor
  · intro lastSeg hlast j hj
    exact stitched_block_shifted recognize p0 lang hin hlast hj
  · intro hi j hj
    subst hi
    exact stitched_block_plain recognize p0 lang hin rfl hj

/-- Witness for C1: with two segments accumulated from chunk 0 (last end
time 5), chunk 1's single segment `{id 0, start 1, end 3}` lands at global
index 2 as `{id 2, start 6, end 8}`. -/
theorem stitch_offset_renumber_witness :
    (transcribe_long_form recW "pt" none 2).segments[
        (stitch_state recW none 1).all_segments.length + 0]?
      = ((chunk_at recW none 1).segments[0]?).map (fun s =>
          { s with start := s.start + (5 : ℚ),
                   «end» := s.«end» + (5 : ℚ),
                   id := ((stitch_state recW none 1).all_segments.length : ℤ) + s.id }) :=
  (stitch_offset_renumber_spec recW none "pt" 2 1 (by decide)).1
    ⟨1, 2, 5, "world"⟩ (by decide) 0 (by decide)

theorem all_segments_empty_of_chunks_empty
    (recognize : ℕ → Option String → RecognitionResult) (p0 : Option String)
    (i : ℕ) (h : ∀ j : ℕ, j < i → (chunk_at recognize p0 j).segments = []) :
    (stitch_state recognize p0 i).all_segments = [] := by
  induction i with
  | zero => rfl
  | succ i ih =>
    rw [all_segments_succ]
    have hi : (stitch_state recognize p0 i).all_segments = [] :=
      ih (fun j hj => h j (Nat.lt_succ_of_lt hj))
    rw [hi, h i (Nat.lt_succ_self i), stitch_adjust_nil, List.append_nil]

theorem duration_step_of_empty_chunk
    (recognize : ℕ → Option String → RecognitionResult) (p0 : Option String)
    (m : ℕ) (h : (chunk_at recognize p0 m).segments = []) :
    (stitch_state recognize p0 (m + 1)).total_duration
      = (stitch_state recognize p0 m).total_duration := by
  rw [stitch_state_succ]
  show (match (stitch_adjust (stitch_state recognize p0 m).all_segments
      (chunk_at recognize p0 m).segments).getLast? with
    | some s => s.«end»
    | none => (stitch_state recognize p0 m).total_duration) = _
  rw [h, stitch_adjust_nil]
  rfl

/-- C10: a chunk preceded only by chunks that produced no segments is
passed through with untouched timestamps and ids; the reported duration is
the end of the last accumulated segment — unchanged across trailing
segment-free chunks — and 0 when no chunk produced a segment. -/
theorem empty_prefix_passthrough_spec
    (recognize : ℕ → Option String → RecognitionResult)
    (p0 : Option String) (lang : String) (n : ℕ) :
    (∀ i : ℕ, i < n →
      (∀ j : ℕ, j < i → (chunk_at recognize p0 j).segments = []) →
      ∀ k : ℕ, k < (chunk_at recognize p0 i).segments.length →
        (transcribe_long_form recognize lang p0 n).segments[k]?
          = (chunk_at recognize p0 i).segments[k]?)
    ∧ (transcribe_long_form recognize lang p0 n).duration
        = lastEnd (transcribe_long_form recognize lang p0 n).segments
    ∧ (∀ i : ℕ, i ≤ n →
        (∀ j : ℕ, i ≤ j → j < n → (chunk_at recognize p0 j).segments = []) →
        (transcribe_long_form recognize lang p0 n).duration
          = (stitch_state recognize p0 i).total_duration)
    ∧ ((∀ j : ℕ, j < n → (chunk_at recognize p0 j).segments = []) →
        (transcribe_long_form recognize lang p0 n).duration = 0) := by
  have hdur : ∀ i : ℕ, i ≤ n →
      (∀ j : ℕ, i ≤ j → j < n → (chunk_at recognize p0 j).segments = []) →
      (transcribe_long_form recognize lang p0 n).duration
        = (stitch_state recognize p0 i).total_duration := by
    intro i hin hsuf
    show (stitch_state recognize p0 n).total_duration = _
    induction n, hin using Nat.le_induction with
    | base => rfl
    | succ m him ih =>
      rw [duration_step_of_empty_chunk recognize p0 m
        (hsuf m him (Nat.lt_succ_self m))]
      exact ih (fun j h1 h2 => hsuf j h1 (Nat.lt_succ_of_lt h2))
  refine ⟨?_, ?_, hdur, ?_⟩
  · intro i hin hpre k hk
    exact stitched_block_plain recognize p0 lang hin
      (all_segments_empty_of_chunks_empty recognize p0 i hpre) hk
  · exact total_duration_eq recognize p0 n
  · intro hall
    rw [hdur 0 (Nat.zero_le n) (fun j _ h2 => hall j h2)]
    rfl

/-- Recognizer whose chunk 0 yields no segments, for the C10 witness. -/
def recE : ℕ → Option String → RecognitionResult := fun i _ =>
  if i = 0 then ⟨"", []⟩ else ⟨"later", [⟨0, 2, 4, "later"⟩]⟩

/-- Witness for C10: with an empty chunk 0, chunk 1's segment appears at
index 0 with untouched timestamps, and the reported duration is the last
accumulated end. -/
theorem empty_prefix_passthrough_witness :
    (transcribe_long_form recE "pt" none 2).segments[0]?
      = (chunk_at recE none 1).segments[0]?
    ∧ (transcribe_long_form recE "pt" none 2).duration
        = lastEnd (transcribe_long_form recE "pt" none 2).segments := by
  constructor
  · exact (empty_prefix_passthrough_spec recE none "pt" 2).1 1 (by decide)
      (fun j hj => by
        have hj0 : j = 0 := by omega
        subst hj0
        decide) 0 (by decide)
  · exact (empty_prefix_passthrough_spec recE none "pt" 2).2.1

/-- Recognizer whose chunk 0 text spans two segments, so that the last ten
words of the whole chunk text differ from the last ten words of its final
segment. -/
def rec_split : ℕ → Option String → RecognitionResult := fun i _ =>
  if i = 0 then ⟨"one two three", [⟨0, 0, 1, "one two"⟩, ⟨1, 1, 2, "three"⟩]⟩
  else ⟨"more", [⟨0, 0, 1, "more"⟩]⟩

/-- Counterexample to C3 as stated: before chunk 1 is recognized, the
accumulated text of chunk 0 is `"one two three"` whose last ten words are
`"one two three"`, yet the prompt the code supplies is `"...three"` — the
ellipsis joined with the last words of the final segment only. -/
theorem continuity_prompt_counterexample :
    (stitch_state rec_split none 1).full_text = [pyStrip (rec_split 0 none).text]
    ∧ last_words (pyStrip (rec_split 0 none).text) = "one two three"
    ∧ prompt_at rec_split none 1 = some "...three"
    ∧ prompt_at rec_split none 1
        ≠ some (last_words (pyStrip (rec_split 0 none).text)) := by
  decide

/-- C3 (amended): before invoking the recognizer on chunk `i > 0` with a
nonempty accumulator, the supplied prompt is an ellipsis followed by the
last ten words of the text of the last accumulated segment (not of the
whole previous chunk text), and that prompt is exactly the one logged for
chunk `i`'s recognition call. -/
theorem continuity_prompt_spec
    (recognize : ℕ → Option String → RecognitionResult) (p0 : Option String)
    (i : ℕ) (lastSeg : Segment) (hpos : 0 < i)
    (hlast : (stitch_state recognize p0 i).all_segments.getLast? = some lastSeg) :
    prompt_at recognize p0 i = some ("..." ++ last_words lastSeg.text)
    ∧ ∀ n : ℕ, i < n →
        (stitch_state recognize p0 n).promptLog[i]?
          = some (prompt_at recognize p0 i) := by
  constructor
  · show (match (stitch_state recognize p0 i).all_segments.getLast? with
      | some lastSeg =>
        if 0 < i then some ("..." ++ last_words lastSeg.text)
        else (stitch_state recognize p0 i).prompt
      | none => (stitch_state recognize p0 i).prompt) = _
    rw [hlast]
    simp [hpos]
  · intro n hn
    rw [promptLog_eq, List.getElem?_map, List.getElem?_range hn]
    rfl

/-- Witness for the amended C3 at chunk 1 of `rec_split`. -/
theorem continuity_prompt_witness :
    prompt_at rec_split none 1
      = some ("..." ++ last_words (Segment.text ⟨1, 1, 2, "three"⟩))
    ∧ (stitch_state rec_split none 2).promptLog[1]? = some (prompt_at rec_split none 1) := by
  have h := continuity_prompt_spec rec_split none 1 ⟨1, 1, 2, "three"⟩ (by decide) (by decide)
  exact ⟨h.1, h.2 2 (by decide)⟩

/-- Ordering between adjacent stitched segments: the earlier one ends no
later than the later one starts. -/
def seg_le (a b : Segment) : Prop := a.«end» ≤ b.start

instance : DecidableRel seg_le := fun a b => by
  unfold seg_le
  infer_instance

theorem end_le_lastEnd :
    ∀ l : List Segment, List.Chain' seg_le l →
      (∀ s ∈ l, s.start ≤ s.«end») →
      ∀ s ∈ l, s.«end» ≤ lastEnd l := by
  intro l
  induction l with
  | nil => intro _ _ s hs; simp at hs
  | cons a t ih =>
    intro hchain hwf s hs
    cases t with
    | nil =>
      simp at hs
      subst hs
      unfold lastEnd
      simp
    | cons b t2 =>
      have hab : seg_le a b := (List.chain'_cons.mp hchain).1
      have hchain2 : List.Chain' seg_le (b :: t2) := (List.chain'_cons.mp hchain).2
      have hwf2 : ∀ x ∈ b :: t2, x.start ≤ x.«end» :=
        fun x hx => hwf x (List.mem_cons_of_mem _ hx)
      have hLE : lastEnd (a :: b :: t2) = lastEnd (b :: t2) := by
        unfold lastEnd
        rw [List.getLast?_cons_cons]
      rw [hLE]
      rcases List.mem_cons.mp hs with h | h
      · subst h
        have hb : b.«end» ≤ lastEnd (b :: t2) :=
          ih hchain2 hwf2 b (List.mem_cons_self _ _)
        calc s.«end» ≤ b.start := hab
          _ ≤ b.«end» := hwf2 b (List.mem_cons_self _ _)
          _ ≤ lastEnd (b :: t2) := hb
      · exact ih hchain2 hwf2 s h

theorem stitch_invariant
    (recognize : ℕ → Option String → RecognitionResult) (p0 : Option String)
    (hseg : ∀ i p, ∀ s ∈ (recognize i p).segments, 0 ≤ s.start ∧ s.start ≤ s.«end»)
    (hchain : ∀ i p, List.Chain' seg_le (recognize i p).segments) :
    ∀ k : ℕ,
      (∀ s ∈ (stitch_state recognize p0 k).all_segments, 0 ≤ s.start ∧ s.start ≤ s.«end»)
      ∧ List.Chain' seg_le (stitch_state recognize p0 k).all_segments := by
  intro k
  induction k with
  | zero => exact ⟨fun s hs => by simp [stitch_state] at hs, List.chain'_nil⟩
  | succ k ih =>
    obtain ⟨ihseg, ihchain⟩ := ih
    rw [all_segments_succ]
    cases hA : (stitch_state recognize p0 k).all_segments.getLast? with
    | none =>
      have hAnil : (stitch_state recognize p0 k).all_segments = [] :=
        List.getLast?_eq_none_iff.mp hA
      have hadj : stitch_adjust (stitch_state recognize p0 k).all_segments
          (chunk_at recognize p0 k).segments = (chunk_at recognize p0 k).segments := by
        unfold stitch_adjust
        rw [hA]
      rw [hadj, hAnil, List.nil_append]
      exact ⟨hseg k (prompt_at recognize p0 k), hchain k (prompt_at recognize p0 k)⟩
    | some L =>
      have hLmem : L ∈ (stitch_state recognize p0 k).all_segments :=
        List.mem_of_mem_getLast? hA
      have hoff : 0 ≤ L.«end» := le_trans (ihseg L hLmem).1 (ihseg L hLmem).2
      have hadj : stitch_adjust (stitch_state recognize p0 k).all_segments
          (chunk_at recognize p0 k).segments
          = (chunk_at recognize p0 k).segments.map (fun s =>
              { s with start := s.start + L.«end»,
                       «end» := s.«end» + L.«end»,
                       id := ((stitch_state recognize p0 k).all_segments.length : ℤ) + s.id }) := by
        unfold stitch_adjust
        rw [hA]
      rw [hadj]
      constructor
      · intro s hs
        rcases List.mem_append.mp hs with h | h
        · exact ihseg s h
        · obtain ⟨s0, hs0, rfl⟩ := List.mem_map.mp h
          obtain ⟨h1, h2⟩ := hseg k (prompt_at recognize p0 k) s0 hs0
          exact ⟨add_nonneg h1 hoff, add_le_add_right h2 L.«end»⟩
      · rw [List.chain'_append]
        refine ⟨ihchain, ?_, ?_⟩
        · rw [List.chain'_map]
          apply (hchain k (prompt_at recognize p0 k)).imp
          intro a b hab
          exact add_le_add_right hab L.«end»
        · intro x hx y hy
          rw [hA] at hx
          simp at hx
          subst hx
          cases hsegs : (chunk_at recognize p0 k).segments with
          | nil => rw [hsegs] at hy; simp at hy
          | cons s0 rest =>
            rw [hsegs] at hy
            simp at hy
            subst hy
            have hs0 : 0 ≤ s0.start := by
              have hmem : s0 ∈ (chunk_at recognize p0 k).segments := by
                rw [hsegs]
                exact List.mem_cons_self _ _
              exact (hseg k (prompt_at recognize p0 k) s0 hmem).1
            show L.«end» ≤ s0.start + L.«end»
            simpa using add_le_add_right hs0 L.«end»

/-- C2 (amended): when every chunk result has non-negative timestamps with
end at least start, and the segments inside each chunk are ordered (each
starts no earlier than the previous one ends), the stitched transcript is
globally ordered and no segment ends after the reported duration.  In the
exact rational model no rounding tolerance is needed. -/
theorem stitched_monotone_spec
    (recognize : ℕ → Option String → RecognitionResult)
    (lang : String) (p0 : Option String) (n : ℕ)
    (hseg : ∀ i p, ∀ s ∈ (recognize i p).segments, 0 ≤ s.start ∧ s.start ≤ s.«end»)
    (hchain : ∀ i p, List.Chain' seg_le (recognize i p).segments) :
    (∀ s ∈ (transcribe_long_form recognize lang p0 n).segments, s.start ≤ s.«end»)
    ∧ List.Chain' seg_le (transcribe_long_form recognize lang p0 n).segments
    ∧ ∀ s ∈ (transcribe_long_form recognize lang p0 n).segments,
        s.«end» ≤ (transcribe_long_form recognize lang p0 n).duration := by
  obtain ⟨hwf, hch⟩ := stitch_invariant recognize p0 hseg hchain n
  have hwf' : ∀ s ∈ (transcribe_long_form recognize lang p0 n).segments,
      s.start ≤ s.«end» := fun s hs => (hwf s hs).2
  refine ⟨hwf', hch, ?_⟩
  intro s hs
  have hdur : (transcribe_long_form recognize lang p0 n).duration
      = lastEnd (transcribe_long_form recognize lang p0 n).segments :=
    total_duration_eq recognize p0 n
  rw [hdur]
  exact end_le_lastEnd _ hch hwf' s hs

/-- Recognizer returning a chunk whose two segments are out of order, for
the C2 counterexample. -/
def rec_bad : ℕ → Option String → RecognitionResult := fun _ _ =>
  ⟨"bad", [⟨0, 0, 5, "first"⟩, ⟨1, 1, 2, "second"⟩]⟩

/-- Counterexample to C2 as stated: every segment of the chunk has
non-negative start and end at least start, yet the stitched transcript is
not ordered — the second segment starts at 1 while the first ends at 5,
far beyond any float-rounding tolerance. -/
theorem stitched_monotone_counterexample :
    ((rec_bad 0 none).segments.all
      (fun s => decide (0 ≤ s.start) && decide (s.start ≤ s.«end»))) = true
    ∧ ¬ List.Chain' seg_le (transcribe_long_form rec_bad "pt" none 1).segments := by
  constructor
  · decide
  · intro hch
    have hsegs : (transcribe_long_form rec_bad "pt" none 1).segments
        = [⟨0, 0, 5, "first"⟩, ⟨1, 1, 2, "second"⟩] := by decide
    rw [hsegs] at hch
    exact absurd (List.Chain'.rel_head hch) (by decide)

/-- Witness for the amended C2 on the two-chunk recognizer `recW`, whose
chunks are internally ordered. -/
theorem stitched_monotone_witness :
    List.Chain' seg_le (transcribe_long_form recW "pt" none 2).segments := by
  have hseg : ∀ i p, ∀ s ∈ (recW i p).segments, 0 ≤ s.start ∧ s.start ≤ s.«end» := by
    intro i p s hs
    by_cases hi : i = 0
    · simp [recW, hi] at hs
      rcases hs with h | h <;> subst h <;> exact ⟨by decide, by decide⟩
    · simp [recW, hi] at hs
      subst hs
      exact ⟨by decide, by decide⟩
  have hchain : ∀ i p, List.Chain' seg_le (recW i p).segments := by
    intro i p
    by_cases hi : i = 0
    · simp [recW, hi, List.chain'_cons]
      decide
    · simp [recW, hi]
  exact (stitched_monotone_spec recW "pt" none 2 hseg hchain).2.1

theorem fallback_go_nil (best : Option (String × ℚ)) (bestScore : ℚ)
    (evaluated : List String) :
    fallback_go [] best bestScore evaluated = (best, evaluated) := rfl

theorem fallback_go_cons_none (model : String)
    (rest : List (String × Option QualityMetrics))
    (best : Option (String × ℚ)) (bestScore : ℚ) (evaluated : List String) :
    fallback_go ((model, none) :: rest) best bestScore evaluated
      = fallback_go rest best bestScore (evaluated ++ [model]) := rfl

theorem fallback_go_cons_some (model : String) (m : QualityMetrics)
    (rest : List (String × Option QualityMetrics))
    (best : Option (String × ℚ)) (bestScore : ℚ) (evaluated : List String) :
    fallback_go ((model, some m) :: rest) best bestScore evaluated
      = if 17 / 20 < quality_score m then
          ((if bestScore < quality_score m then some (model, quality_score m) else best),
            evaluated ++ [model])
        else
          fallback_go rest
            (if bestScore < quality_score m then some (model, quality_score m) else best)
            (if bestScore < quality_score m then quality_score m else bestScore)
            (evaluated ++ [model]) := rfl

/-- Loop invariant of `fallback_go`: the evaluated list grows by the
processed prefix of the attempts; a returned best either was the incoming
best or arises from a processed attempt, its score dominates every
processed success, and processing stops at the end of the list or right
after a score above the threshold. -/
theorem fallback_go_invariant :
    ∀ (attempts : List (String × Option QualityMetrics))
      (best : Option (String × ℚ)) (bestScore : ℚ) (evaluated : List String),
      0 ≤ bestScore →
      (best = none → bestScore = 0) →
      (∀ mod sc, best = some (mod, sc) → sc = bestScore ∧ 0 < sc) →
      ∃ k : ℕ, k ≤ attempts.length
        ∧ (fallback_go attempts best bestScore evaluated).2
            = evaluated ++ (attempts.take k).map Prod.fst
        ∧ (∀ mod sc,
            (fallback_go attempts best bestScore evaluated).1 = some (mod, sc) →
            (best = some (mod, sc) ∨ ∃ m, (mod, some m) ∈ attempts.take k ∧ quality_score m = sc)
            ∧ bestScore ≤ sc ∧ 0 < sc
            ∧ ∀ p ∈ attempts.take k, ∀ m', p.2 = some m' → quality_score m' ≤ sc)
        ∧ (k = attempts.length
           ∨ ∃ mod' m', 1 ≤ k ∧ attempts[k - 1]? = some (mod', some m')
               ∧ 17 / 20 < quality_score m') := by
  intro attempts
  induction attempts with
  | nil =>
    intro best bestScore evaluated h0 hnone hbest
    refine ⟨0, Nat.le_refl _, by simp [fallback_go_nil], ?_, Or.inl rfl⟩
    intro mod sc hsome
    rw [fallback_go_nil] at hsome
    obtain ⟨hsc, hpos⟩ := hbest mod sc hsome
    exact ⟨Or.inl hsome, le_of_eq hsc.symm, hpos, by simp⟩
  | cons a rest ih =>
    intro best bestScore evaluated h0 hnone hbest
    obtain ⟨model, res⟩ := a
    cases res with
    | none =>
      obtain ⟨k, hk, hev, hsome, hstop⟩ :=
        ih best bestScore (evaluated ++ [model]) h0 hnone hbest
      refine ⟨k + 1, by simpa using Nat.succ_le_succ hk, ?_, ?_, ?_⟩
      · rw [fallback_go_cons_none, hev]
        simp [List.take_succ_cons]
      · intro mod sc h
        rw [fallback_go_cons_none] at h
        obtain ⟨hd, hle, hpos, hall⟩ := hsome mod sc h
        refine ⟨?_, hle, hpos, ?_⟩
        · rcases hd with h1 | ⟨m, hm, hq⟩
          · exact Or.inl h1
          · refine Or.inr ⟨m, ?_, hq⟩
            rw [List.take_succ_cons]
            exact List.mem_cons_of_mem _ hm
        · intro p hp m' hp2
          rw [List.take_succ_cons, List.mem_cons] at hp
          rcases hp with h1 | h1
          · subst h1
            simp at hp2
          · exact hall p h1 m' hp2
      · rcases hstop with h1 | ⟨mod', m', hk1, hidx, hs⟩
        · exact Or.inl (by simp [h1])
        · refine Or.inr ⟨mod', m', by omega, ?_, hs⟩
          obtain ⟨j, rfl⟩ : ∃ j, k = j + 1 := ⟨k - 1, by omega⟩
          simpa using hidx
    | some m =>
      by_cases hstop : 17 / 20 < quality_score m
      · by_cases hlt : bestScore < quality_score m
        · refine ⟨1, by simp, ?_, ?_, ?_⟩
          · rw [fallback_go_cons_some, if_pos hstop]
            simp
          · intro mod sc h
            rw [fallback_go_cons_some, if_pos hstop] at h
            simp only [if_pos hlt] at h
            have hpair : (model, quality_score m) = (mod, sc) := Option.some.inj h
            have hmod : model = mod := congrArg Prod.fst hpair
            have hsc : quality_score m = sc := congrArg Prod.snd hpair
            subst hmod
            subst hsc
            refine ⟨Or.inr ⟨m, by simp, rfl⟩, le_of_lt hlt, lt_of_le_of_lt h0 hlt, ?_⟩
            intro p hp m' hp2
            simp [List.take_succ_cons] at hp
            subst hp
            simp at hp2
            subst hp2
            exact le_refl _
          · exact Or.inr ⟨model, m, Nat.le_refl _, by simp, hstop⟩
        · refine ⟨1, by simp, ?_, ?_, ?_⟩
          · rw [fallback_go_cons_some, if_pos hstop]
            simp
          · intro mod sc h
            rw [fallback_go_cons_some, if_pos hstop] at h
            simp only [if_neg hlt] at h
            have h' : best = some (mod, sc) := h
            obtain ⟨hsc, hpos⟩ := hbest mod sc h'
            refine ⟨Or.inl h', le_of_eq hsc.symm, hpos, ?_⟩
            intro p hp m' hp2
            simp [List.take_succ_cons] at hp
            subst hp
            simp at hp2
            subst hp2
            calc quality_score m ≤ bestScore := not_lt.mp hlt
              _ = sc := hsc.symm
          · exact Or.inr ⟨model, m, Nat.le_refl _, by simp, hstop⟩
      · set best' := if bestScore < quality_score m then some (model, quality_score m) else best with hbest'
        set bestScore' := if bestScore < quality_score m then quality_score m else bestScore with hbestScore'
        have h0' : 0 ≤ bestScore' := by
          rw [hbestScore']
          split
          · exact le_trans h0 (le_of_lt (by assumption))
          · exact h0
        have hge : bestScore ≤ bestScore' := by
          rw [hbestScore']
          split
          · exact le_of_lt (by assumption)
          · exact le_refl _
        have hnone' : best' = none → bestScore' = 0 := by
          rw [hbest', hbestScore']
          split
          · intro h
            simp at h
          · exact hnone
        have hbestH : ∀ mod sc, best' = some (mod, sc) → sc = bestScore' ∧ 0 < sc := by
          rw [hbest', hbestScore']
          split
          · intro mod sc h
            have : model = mod ∧ quality_score m = sc := by
              simpa using h
            refine ⟨this.2.symm, ?_⟩
            rw [← this.2]
            exact lt_of_le_of_lt h0 (by assumption)
          · exact hbest
        have hscore_le : quality_score m ≤ bestScore' := by
          rw [hbestScore']
          split
          · exact le_refl _
          · exact not_lt.mp (by assumption)
        obtain ⟨k, hk, hev, hsome, hstop'⟩ :=
          ih best' bestScore' (evaluated ++ [model]) h0' hnone' hbestH
        refine ⟨k + 1, by simpa using Nat.succ_le_succ hk, ?_, ?_, ?_⟩
        · rw [fallback_go_cons_some, if_neg hstop, hev]
          simp [List.take_succ_cons]
        · intro mod sc h
          rw [fallback_go_cons_some, if_neg hstop] at h
          obtain ⟨hd, hle, hpos, hall⟩ := hsome mod sc h
          have hlebest : bestScore ≤ sc := le_trans hge hle
          refine ⟨?_, hlebest, hpos, ?_⟩
          · rcases hd with h1 | ⟨m'', hm'', hq⟩
            · rw [hbest'] at h1
              by_cases hlt : bestScore < quality_score m
              · rw [if_pos hlt] at h1
                have : model = mod ∧ quality_score m = sc := by simpa using h1
                exact Or.inr ⟨m, by simp [List.take_succ_cons, this.1], this.2⟩
              · rw [if_neg hlt] at h1
                exact Or.inl h1
            · exact Or.inr ⟨m'', by simp [List.take_succ_cons, List.mem_cons]; right; exact hm'', hq⟩
          · intro p hp m' hp2
            rw [List.take_succ_cons, List.mem_cons] at hp
            rcases hp with h1 | h1
            · subst h1
              simp at hp2
              subst hp2
              exact le_trans hscore_le hle
            · exact hall p h1 m' hp2
        · rcases hstop' with h1 | ⟨mod', m', hk1, hidx, hs⟩
          · exact Or.inl (by simp [h1])
          · refine Or.inr ⟨mod', m', by omega, ?_, hs⟩
            obtain ⟨j, rfl⟩ : ∃ j, k = j + 1 := ⟨k - 1, by omega⟩
            simpa using hidx

/-- Metrics scoring 0.60 under the composite formula. -/
def metrics_small : QualityMetrics := ⟨1, 5, 1 / 5, 0, 0⟩

/-- Metrics scoring 0.91 under the composite formula. -/
def metrics_medium : QualityMetrics := ⟨1, 5, 41 / 50, 0, 0⟩

/-- Metrics scoring 0.95 under the composite formula. -/
def metrics_large : QualityMetrics := ⟨1, 5, 9 / 10, 0, 0⟩

/-- C5: `transcribe_with_fallback` tries the models in order (the
evaluated list is a prefix of the attempt list), keeps the best-scoring
result seen, stops as soon as a score exceeds 0.85 — with scores
0.60/0.91/0.95 the third model is never evaluated and `medium` wins — and
fails with an error when every attempt raises. -/
theorem transcribe_fallback_spec :
    (∀ attempts : List (String × Option QualityMetrics),
      (∀ p ∈ attempts, p.2 = none) →
      (transcribe_with_fallback attempts).1
        = Except.error "Falha ao transcrever com todos os modelos")
    ∧ (∀ attempts : List (String × Option QualityMetrics),
       ∀ model : String, ∀ sc : ℚ,
        (transcribe_with_fallback attempts).1 = Except.ok (model, sc) →
        ∃ k : ℕ, k ≤ attempts.length
          ∧ (transcribe_with_fallback attempts).2 = (attempts.take k).map Prod.fst
          ∧ (∃ m, (model, some m) ∈ attempts.take k ∧ quality_score m = sc)
          ∧ 0 < sc
          ∧ (∀ p ∈ attempts.take k, ∀ m', p.2 = some m' → quality_score m' ≤ sc)
          ∧ (k = attempts.length
             ∨ ∃ mod' m', 1 ≤ k ∧ attempts[k - 1]? = some (mod', some m')
                 ∧ 17 / 20 < quality_score m'))
    ∧ transcribe_with_fallback
        [("small", some metrics_small), ("medium", some metrics_medium),
          ("large", some metrics_large)]
        = (Except.ok ("medium", 91 / 100), ["small", "medium"]) := by
  have hinit := fun attempts =>
    fallback_go_invariant attempts none 0 [] (le_refl 0) (fun _ => rfl)
      (fun mod sc h => by simp at h)
  refine ⟨?_, ?_, ?_⟩
  · intro attempts hall
    obtain ⟨k, hk, hev, hsome, hstop⟩ := hinit attempts
    rcases hfg : fallback_go attempts none 0 [] with ⟨res, ev⟩
    have hTF : transcribe_with_fallback attempts
        = match (res, ev) with
          | (none, evaluated) =>
            (Except.error "Falha ao transcrever com todos os modelos", evaluated)
          | (some best, evaluated) => (Except.ok best, evaluated) := by
      unfold transcribe_with_fallback
      rw [hfg]
    cases res with
    | none => rw [hTF]
    | some best =>
      exfalso
      obtain ⟨bm, bs⟩ := best
      have h1 := hsome bm bs (by rw [hfg])
      rcases h1.1 with h2 | ⟨m, hm, _⟩
      · simp at h2
      · have hmem : (bm, some m) ∈ attempts := List.mem_of_mem_take hm
        have := hall (bm, some m) hmem
        simp at this
  · intro attempts model sc
    obtain ⟨k, hk, hev, hsome, hstop⟩ := hinit attempts
    rcases hfg : fallback_go attempts none 0 [] with ⟨res, ev⟩
    have hTF : transcribe_with_fallback attempts
        = match (res, ev) with
          | (none, evaluated) =>
            (Except.error "Falha ao transcrever com todos os modelos", evaluated)
          | (some best, evaluated) => (Except.ok best, evaluated) := by
      unfold transcribe_with_fallback
      rw [hfg]
    cases res with
    | none =>
      rw [hTF]
      intro hok
      simp at hok
    | some best =>
      obtain ⟨bm, bs⟩ := best
      rw [hTF]
      intro hok
      simp only at hok
      have hpair : (bm, bs) = (model, sc) := by
        have := Except.ok.inj hok
        exact this
      have hbm : bm = model := congrArg Prod.fst hpair
      have hbs : bs = sc := congrArg Prod.snd hpair
      subst hbm
      subst hbs
      have h1 := hsome bm bs (by rw [hfg])
      obtain ⟨hd, _, hpos, hall'⟩ := h1
      have hex : ∃ m, (bm, some m) ∈ attempts.take k ∧ quality_score m = bs := by
        rcases hd with h2 | h2
        · simp at h2
        · exact h2
      refine ⟨k, hk, ?_, hex, hpos, hall', hstop⟩
      have hev' : ev = (attempts.take k).map Prod.fst := by
        rw [hfg] at hev
        simpa using hev
      rw [← hev']
  · have h1 : quality_score metrics_small = 3 / 5 := by
      norm_num [quality_score, metrics_small]
    have h2 : quality_score metrics_medium = 91 / 100 := by
      norm_num [quality_score, metrics_medium]
    have hgo : fallback_go
        [("small", some metrics_small), ("medium", some metrics_medium),
          ("large", some metrics_large)] none 0 []
        = (some ("medium", 91 / 100), ["small", "medium"]) := by
      simp only [fallback_go, h1, h2]
      norm_num
    unfold transcribe_with_fallback
    rw [hgo]

/-- Attempt list in which every model raises, for the C5 witness. -/
def attempts_raise : List (String × Option QualityMetrics) :=
  [("small", none), ("medium", none)]

/-- Witness for C5: when both models raise, the operation fails with the
error and no result. -/
theorem transcribe_fallback_witness :
    (transcribe_with_fallback attempts_raise).1
      = Except.error "Falha ao transcrever com todos os modelos" :=
  transcribe_fallback_spec.1 attempts_raise (by decide)

theorem collapseWS_cons_nonspace (c : Char) (h : isPySpace c = false) (cs : List Char) :
    collapseWS (c :: cs) = c :: collapseWS cs := by
  rw [collapseWS, chop_cons wsStep wsStep_length_le]
  simp [wsStep, h, collapseWS]

theorem collapseWS_cons_space (c : Char) (h : isPySpace c = true) (cs : List Char) :
    collapseWS (c :: cs) = ' ' :: collapseWS (cs.dropWhile isPySpace) := by
  rw [collapseWS, chop_cons wsStep wsStep_length_le]
  simp [wsStep, h, collapseWS]

theorem tokenize_cons (c : Char) (cs : List Char) :
    tokenize (c :: cs) = (tokStep c cs).1 ++ tokenize ((tokStep c cs).2) :=
  chop_cons tokStep tokStep_length_le c cs

theorem collapseReps_cons (t : Tok) (ts : List Tok) :
    collapseReps (t :: ts) = (repStep t ts).1 ++ collapseReps ((repStep t ts).2) :=
  chop_cons repStep repStep_length_le t ts

theorem collapsePeriods_cons (c : Char) (cs : List Char) :
    collapsePeriods (c :: cs) = (dotStep c cs).1 ++ collapsePeriods ((dotStep c cs).2) :=
  chop_cons dotStep dotStep_length_le c cs

theorem remove_repetitions_eq (s : String) :
    remove_repetitions s
      = ⟨pyStripL (collapsePeriods (renderToks (collapseReps (tokenize (collapseWS s.data)))))⟩ :=
  rfl

theorem takeWhile_replicate_self (p : Char → Bool) (a : Char) (h : p a = true) :
    ∀ n : ℕ, List.takeWhile p (List.replicate n a) = List.replicate n a := by
  intro n
  induction n with
  | zero => rfl
  | succ n ih => simp [List.replicate_succ, List.takeWhile_cons, h, ih]

theorem dropWhile_replicate_self (p : Char → Bool) (a : Char) (h : p a = true) :
    ∀ n : ℕ, List.dropWhile p (List.replicate n a) = [] := by
  intro n
  induction n with
  | zero => rfl
  | succ n ih => simp [List.replicate_succ, List.dropWhile_cons, h, ih]

theorem dropWhile_replicate_append (p : Char → Bool) (a : Char) (h : p a = true)
    (l : List Char) :
    ∀ n : ℕ, List.dropWhile p (List.replicate n a ++ l) = List.dropWhile p l := by
  intro n
  induction n with
  | zero => rfl
  | succ n ih => simp [List.replicate_succ, List.dropWhile_cons, h, ih]

theorem collapseWS_nospace :
    ∀ l : List Char, (∀ c ∈ l, isPySpace c = false) → collapseWS l = l := by
  intro l
  induction l with
  | nil => intro _; rfl
  | cons c cs ih =>
    intro h
    rw [collapseWS_cons_nonspace c (h c (List.mem_cons_self _ _))]
    rw [ih (fun x hx => h x (List.mem_cons_of_mem _ hx))]

theorem tokenize_dots :
    ∀ m : ℕ, tokenize (List.replicate m '.') = List.replicate m (Tok.other '.') := by
  intro m
  induction m with
  | zero => rfl
  | succ m ih =>
    rw [List.replicate_succ, tokenize_cons]
    rw [show tokStep '.' (List.replicate m '.')
        = ([Tok.other '.'], List.replicate m '.') from rfl]
    rw [ih, List.replicate_succ]
    rfl

theorem collapseReps_dots :
    ∀ m : ℕ, collapseReps (List.replicate m (Tok.other '.'))
      = List.replicate m (Tok.other '.') := by
  intro m
  induction m with
  | zero => rfl
  | succ m ih =>
    rw [List.replicate_succ, collapseReps_cons]
    rw [show repStep (Tok.other '.') (List.replicate m (Tok.other '.'))
        = ([Tok.other '.'], List.replicate m (Tok.other '.')) from rfl]
    rw [ih]
    rfl

theorem renderToks_dots :
    ∀ m : ℕ, renderToks (List.replicate m (Tok.other '.')) = List.replicate m '.' := by
  intro m
  induction m with
  | zero => rfl
  | succ m ih =>
    rw [List.replicate_succ, List.replicate_succ]
    show '.' :: renderToks (List.replicate m (Tok.other '.')) = _
    rw [ih]

theorem collapsePeriods_a_dots :
    ∀ mm : ℕ, collapsePeriods ('a' :: List.replicate (mm + 4) '.') = ['a', '.', '.', '.'] := by
  intro mm
  rw [collapsePeriods_cons]
  rw [show dotStep 'a' (List.replicate (mm + 4) '.')
      = (['a'], List.replicate (mm + 4) '.') from rfl]
  rw [show List.replicate (mm + 4) '.' = '.' :: List.replicate (mm + 3) '.' from rfl]
  rw [collapsePeriods_cons]
  have h2 : dotStep '.' (List.replicate (mm + 3) '.') = (['.', '.', '.'], []) := by
    unfold dotStep
    rw [takeWhile_replicate_self _ _ rfl, dropWhile_replicate_self _ _ rfl]
    simp
  rw [h2]
  rfl

/-- The whole `_remove_repetitions` pass on a letter followed by four or
more periods: the run collapses to exactly three periods. -/
theorem remove_repetitions_dots (m : ℕ) (hm : 4 ≤ m) :
    remove_repetitions ("a" ++ ⟨List.replicate m '.'⟩) = "a..." := by
  obtain ⟨mm, rfl⟩ : ∃ mm, m = mm + 4 := ⟨m - 4, by omega⟩
  rw [remove_repetitions_eq]
  rw [show ("a" ++ (⟨List.replicate (mm + 4) '.'⟩ : String)).data
      = 'a' :: List.replicate (mm + 4) '.' from rfl]
  have hws : collapseWS ('a' :: List.replicate (mm + 4) '.')
      = 'a' :: List.replicate (mm + 4) '.' := by
    apply collapseWS_nospace
    intro c hc
    rcases List.mem_cons.mp hc with h | h
    · subst h; rfl
    · rw [List.eq_of_mem_replicate h]; rfl
  rw [hws]
  have htok : tokenize ('a' :: List.replicate (mm + 4) '.')
      = Tok.word ['a'] :: List.replicate (mm + 4) (Tok.other '.') := by
    rw [tokenize_cons]
    have hstep : tokStep 'a' (List.replicate (mm + 4) '.')
        = ([Tok.word ['a']], List.replicate (mm + 4) '.') := by
      rw [show List.replicate (mm + 4) '.' = '.' :: List.replicate (mm + 3) '.' from rfl]
      rfl
    rw [hstep, tokenize_dots]
    rfl
  rw [htok]
  have hcr : collapseReps (Tok.word ['a'] :: List.replicate (mm + 4) (Tok.other '.'))
      = Tok.word ['a'] :: List.replicate (mm + 4) (Tok.other '.') := by
    rw [collapseReps_cons]
    have hsr : splitReps ['a'] (List.replicate (mm + 4) (Tok.other '.'))
        = (0, List.replicate (mm + 4) (Tok.other '.')) := by
      rw [show List.replicate (mm + 4) (Tok.other '.')
          = Tok.other '.' :: List.replicate (mm + 3) (Tok.other '.') from rfl]
      rfl
    have hrep : repStep (Tok.word ['a']) (List.replicate (mm + 4) (Tok.other '.'))
        = ([Tok.word ['a']], List.replicate (mm + 4) (Tok.other '.')) := by
      simp [repStep, hsr]
    rw [hrep, collapseReps_dots]
    rfl
  rw [hcr]
  have hrd : renderToks (Tok.word ['a'] :: List.replicate (mm + 4) (Tok.other '.'))
      = 'a' :: List.replicate (mm + 4) '.' := by
    show 'a' :: renderToks (List.replicate (mm + 4) (Tok.other '.')) = _
    rw [renderToks_dots]
  rw [hrd, collapsePeriods_a_dots]
  decide

/-- The whole `_remove_repetitions` pass on two words separated by a run
of whitespace: the run collapses to a single space. -/
theorem remove_repetitions_spaces (j : ℕ) (hj : 1 ≤ j) :
    remove_repetitions ("go" ++ ⟨List.replicate j ' '⟩ ++ "home") = "go home" := by
  obtain ⟨jj, rfl⟩ : ∃ jj, j = jj + 1 := ⟨j - 1, by omega⟩
  rw [remove_repetitions_eq]
  rw [show ("go" ++ (⟨List.replicate (jj + 1) ' '⟩ : String) ++ "home").data
      = 'g' :: 'o' :: (List.replicate (jj + 1) ' ' ++ ['h', 'o', 'm', 'e']) from by
    show ("go".data ++ List.replicate (jj + 1) ' ') ++ "home".data = _
    simp]
  have hws : collapseWS ('g' :: 'o' :: (List.replicate (jj + 1) ' ' ++ ['h', 'o', 'm', 'e']))
      = "go home".data := by
    rw [collapseWS_cons_nonspace 'g' rfl, collapseWS_cons_nonspace 'o' rfl]
    rw [show List.replicate (jj + 1) ' ' ++ ['h', 'o', 'm', 'e']
        = ' ' :: (List.replicate jj ' ' ++ ['h', 'o', 'm', 'e']) from by
      rw [List.replicate_succ, List.cons_append]]
    rw [collapseWS_cons_space ' ' rfl]
    rw [dropWhile_replicate_append _ _ rfl]
    rw [show List.dropWhile isPySpace ['h', 'o', 'm', 'e'] = ['h', 'o', 'm', 'e'] from rfl]
    rw [show collapseWS ['h', 'o', 'm', 'e'] = ['h', 'o', 'm', 'e'] from by decide]
  rw [hws]
  decide

/-- A word written `k + 1` times, separated by single spaces. -/
def word_rep (w : String) : ℕ → String
  | 0 => w
  | k + 1 => w ++ " " ++ word_rep w k

/-- Token shape of `k` repetitions `" go"` following an initial word. -/
def pairToks : ℕ → List Tok
  | 0 => []
  | k + 1 => Tok.space [' '] :: Tok.word ['g', 'o'] :: pairToks k

theorem word_rep_go_data (k : ℕ) :
    ∃ t : List Char, (word_rep "go" k).data = 'g' :: 'o' :: t := by
  cases k with
  | zero => exact ⟨[], rfl⟩
  | succ k => exact ⟨' ' :: (word_rep "go" k).data, rfl⟩

theorem collapseWS_word_rep :
    ∀ k : ℕ, collapseWS ((word_rep "go" k).data ++ ' ' :: ['h', 'o', 'm', 'e'])
      = (word_rep "go" k).data ++ ' ' :: ['h', 'o', 'm', 'e'] := by
  intro k
  induction k with
  | zero => decide
  | succ k ih =>
    have hdrop : List.dropWhile isPySpace
        ((word_rep "go" k).data ++ ' ' :: ['h', 'o', 'm', 'e'])
        = (word_rep "go" k).data ++ ' ' :: ['h', 'o', 'm', 'e'] := by
      obtain ⟨t, ht⟩ := word_rep_go_data k
      rw [ht]
      rfl
    rw [show (word_rep "go" (k + 1)).data
        = 'g' :: 'o' :: ' ' :: (word_rep "go" k).data from rfl]
    rw [List.cons_append, List.cons_append, List.cons_append]
    rw [collapseWS_cons_nonspace 'g' rfl, collapseWS_cons_nonspace 'o' rfl,
      collapseWS_cons_space ' ' rfl, hdrop, ih]

theorem tokenize_word_rep :
    ∀ k : ℕ, tokenize ((word_rep "go" k).data ++ ' ' :: ['h', 'o', 'm', 'e'])
      = Tok.word ['g', 'o'] :: pairToks k
          ++ [Tok.space [' '], Tok.word ['h', 'o', 'm', 'e']] := by
  intro k
  induction k with
  | zero => decide
  | succ k ih =>
    rw [show (word_rep "go" (k + 1)).data
        = 'g' :: 'o' :: ' ' :: (word_rep "go" k).data from rfl]
    rw [List.cons_append, List.cons_append, List.cons_append]
    rw [tokenize_cons]
    rw [show tokStep 'g' ('o' :: ' ' :: ((word_rep "go" k).data ++ ' ' :: ['h', 'o', 'm', 'e']))
        = ([Tok.word ['g', 'o']],
            ' ' :: ((word_rep "go" k).data ++ ' ' :: ['h', 'o', 'm', 'e'])) from rfl]
    rw [tokenize_cons]
    have htake : List.takeWhile isPySpace
        ((word_rep "go" k).data ++ ' ' :: ['h', 'o', 'm', 'e']) = [] := by
      obtain ⟨t, ht⟩ := word_rep_go_data k
      rw [ht]
      rfl
    have hdrop : List.dropWhile isPySpace
        ((word_rep "go" k).data ++ ' ' :: ['h', 'o', 'm', 'e'])
        = (word_rep "go" k).data ++ ' ' :: ['h', 'o', 'm', 'e'] := by
      obtain ⟨t, ht⟩ := word_rep_go_data k
      rw [ht]
      rfl
    have hstep : tokStep ' ' ((word_rep "go" k).data ++ ' ' :: ['h', 'o', 'm', 'e'])
        = ([Tok.space [' ']], (word_rep "go" k).data ++ ' ' :: ['h', 'o', 'm', 'e']) := by
      rw [show tokStep ' ' ((word_rep "go" k).data ++ ' ' :: ['h', 'o', 'm', 'e'])
          = ([Tok.space (' ' :: List.takeWhile isPySpace
                ((word_rep "go" k).data ++ ' ' :: ['h', 'o', 'm', 'e']))],
              List.dropWhile isPySpace
                ((word_rep "go" k).data ++ ' ' :: ['h', 'o', 'm', 'e'])) from rfl]
      rw [htake, hdrop]
    rw [hstep, ih]
    rfl

theorem splitReps_pairToks :
    ∀ (k : ℕ) (rest : List Tok),
      splitReps ['g', 'o'] (pairToks k ++ rest)
        = ((splitReps ['g', 'o'] rest).1 + k, (splitReps ['g', 'o'] rest).2) := by
  intro k
  induction k with
  | zero => intro rest; simp [pairToks]
  | succ k ih =>
    intro rest
    rw [show pairToks (k + 1) ++ rest
        = Tok.space [' '] :: Tok.word ['g', 'o'] :: (pairToks k ++ rest) from rfl]
    rw [show splitReps ['g', 'o']
          (Tok.space [' '] :: Tok.word ['g', 'o'] :: (pairToks k ++ rest))
        = ((splitReps ['g', 'o'] (pairToks k ++ rest)).1 + 1,
            (splitReps ['g', 'o'] (pairToks k ++ rest)).2) from by
      simp [splitReps]]
    rw [ih]
    rfl

theorem collapseReps_word_rep (k : ℕ) (hk : 2 ≤ k) :
    collapseReps (Tok.word ['g', 'o'] :: pairToks k
        ++ [Tok.space [' '], Tok.word ['h', 'o', 'm', 'e']])
      = [Tok.word ['g', 'o'], Tok.space [' '], Tok.word ['h', 'o', 'm', 'e']] := by
  rw [show Tok.word ['g', 'o'] :: pairToks k
        ++ [Tok.space [' '], Tok.word ['h', 'o', 'm', 'e']]
      = Tok.word ['g', 'o'] :: (pairToks k
          ++ [Tok.space [' '], Tok.word ['h', 'o', 'm', 'e']]) from rfl]
  rw [collapseReps_cons]
  have hsr : splitReps ['g', 'o']
      (pairToks k ++ [Tok.space [' '], Tok.word ['h', 'o', 'm', 'e']])
      = (k, [Tok.space [' '], Tok.word ['h', 'o', 'm', 'e']]) := by
    rw [splitReps_pairToks]
    rw [show splitReps ['g', 'o'] [Tok.space [' '], Tok.word ['h', 'o', 'm', 'e']]
        = (0, [Tok.space [' '], Tok.word ['h', 'o', 'm', 'e']]) from by decide]
    simp
  have hrep : repStep (Tok.word ['g', 'o'])
      (pairToks k ++ [Tok.space [' '], Tok.word ['h', 'o', 'm', 'e']])
      = ([Tok.word ['g', 'o']], [Tok.space [' '], Tok.word ['h', 'o', 'm', 'e']]) := by
    simp [repStep, hsr, hk]
  rw [hrep]
  rw [show collapseReps [Tok.space [' '], Tok.word ['h', 'o', 'm', 'e']]
      = [Tok.space [' '], Tok.word ['h', 'o', 'm', 'e']] from by decide]
  rfl

/-- The whole `_remove_repetitions` pass on a word repeated three or more
times: the repetitions collapse to a single occurrence. -/
theorem remove_repetitions_word_rep (k : ℕ) (hk : 2 ≤ k) :
    remove_repetitions (word_rep "go" k ++ " home") = "go home" := by
  rw [remove_repetitions_eq]
  rw [show (word_rep "go" k ++ " home").data
      = (word_rep "go" k).data ++ ' ' :: ['h', 'o', 'm', 'e'] from rfl]
  rw [collapseWS_word_rep, tokenize_word_rep, collapseReps_word_rep k hk]
  decide

/-- C7: `_remove_repetitions` collapses whitespace runs to single spaces,
collapses a word repeated three or more consecutive times to one
occurrence, and collapses four or more consecutive periods to exactly
three; in particular `"go go go home"` becomes `"go home"` and `"a....."`
becomes `"a..."`. -/
theorem remove_repetitions_spec :
    remove_repetitions "go go go home" = "go home"
    ∧ remove_repetitions "a....." = "a..."
    ∧ (∀ j : ℕ, 1 ≤ j →
        remove_repetitions ("go" ++ ⟨List.replicate j ' '⟩ ++ "home") = "go home")
    ∧ (∀ k : ℕ, 2 ≤ k →
        remove_repetitions (word_rep "go" k ++ " home") = "go home")
    ∧ (∀ m : ℕ, 4 ≤ m →
        remove_repetitions ("a" ++ ⟨List.replicate m '.'⟩) = "a...") :=
  ⟨by decide, by decide, remove_repetitions_spaces, remove_repetitions_word_rep,
    remove_repetitions_dots⟩

/-- Witness for C7: three spaces collapse to one, four occurrences of a
word collapse to one, five periods collapse to three. -/
theorem remove_repetitions_witness :
    remove_repetitions ("go" ++ ⟨List.replicate 3 ' '⟩ ++ "home") = "go home"
    ∧ remove_repetitions (word_rep "go" 3 ++ " home") = "go home"
    ∧ remove_repetitions ("a" ++ ⟨List.replicate 5 '.'⟩) = "a..." :=
  ⟨remove_repetitions_spec.2.2.1 3 (by decide),
   remove_repetitions_spec.2.2.2.1 3 (by decide),
   remove_repetitions_spec.2.2.2.2 5 (by decide)⟩
